import Mathlib

/-!
Shallow embedding of the filesystem inode layer of this repository:
the block store (`Project_5/block.c`, `Project_5/block.h`), the inode
free-bitmap allocator and inode lifecycle code (`Project_5-6/inode.c`),
and the formatting constants (`Project_5-7/mkfs.h`).

A disk block is modelled as a function from byte index to byte value and
the disk as a function from block number to block.  The functions of the
C sources that are present are translated directly; functions of this
repository that the given sources only declare, call or describe
(`free.h`, `inode.h`, `pack.c`, and the commented-out algorithm text in
`inode.c`) are modelled from the design document and carry a doc comment
saying so.
-/

/-- Block size in bytes, from `Project_5/block.h`. -/
def BLOCK_SIZE : Nat := 4096

/-- Data-block free-bitmap block number, from `Project_5/block.h`. -/
def FREE_DATA_BLOCK_NUM : Nat := 2

/-- Total number of blocks on the image, from `Project_5-7/mkfs.h`. -/
def NUM_OF_BLOCKS : Nat := 1024

/-- Modelled from the spec: `inode.h` is not among the given sources; the
design fixes block 1 as the inode free-bitmap block (`FREE_INODE_BLOCK_NUM`). -/
def FREE_INODE_BLOCK_NUM : Nat := 1

/-- A disk block: byte index to byte value. -/
def Block : Type := Nat → Nat

/-- The disk image seen as an array of blocks, as the inode layer uses it. -/
def Disk : Type := Nat → Block

/-- Translation of `bread` of `Project_5/block.c` at the granularity the
inode layer observes: fetch the block at `block_num`. -/
def bread (d : Disk) (block_num : Nat) : Block := d block_num

/-- Translation of `bwrite` of `Project_5/block.c` at the granularity the
inode layer observes: replace the block at `block_num`. -/
def bwrite (d : Disk) (block_num : Nat) (block : Block) : Disk :=
  fun b => if b = block_num then block else d b

/-- Modelled from the spec: `free.c` is not among the given sources.  Bit
`i` of a bitmap block, bits in increasing order, lowest bit of the lowest
byte first. -/
def getBit (block : Block) (i : Nat) : Bool :=
  (block (i / 8)).testBit (i % 8)

/-- Modelled from the spec: `free.c` is not among the given sources.
`set_free(block, num, set)` mutates bit `num` of the bitmap block in
place; value 1 sets the bit, value 0 clears it. -/
def set_free (block : Block) (num : Nat) (v : Nat) : Block :=
  fun j =>
    if j = num / 8 then
      if v = 0 then block (num / 8) &&& (255 - 2 ^ (num % 8))
      else block (num / 8) ||| 2 ^ (num % 8)
    else block j

/-- Modelled from the spec: `free.c` is not among the given sources.
Helper scanning bits `i, i+1, ...` (`k` bits in all) for the first bit
equal to 0. -/
def find_free_from (block : Block) (i : Nat) : Nat → Int
  | 0 => -1
  | k + 1 => if getBit block i = false then (i : Int) else find_free_from block (i + 1) k

/-- Modelled from the spec: `free.c` is not among the given sources.
`find_free` scans the bitmap block in increasing bit order and returns
the index of the first 0 bit, or -1 if every bit is 1 (the -1 convention
is visible in the guard of `ialloc` in `Project_5-6/inode.c`). -/
def find_free (block : Block) : Int := find_free_from block 0 (BLOCK_SIZE * 8)

/-- Translation of `ialloc` of `Project_5-6/inode.c`: read the inode
free-bitmap block, find the lowest free bit, and if one exists set it and
write the bitmap block back; return the bit index (or -1). -/
def ialloc (d : Disk) : Int × Disk :=
  let inode_map := bread d FREE_INODE_BLOCK_NUM
  let low_free_bit := find_free inode_map
  if low_free_bit ≠ -1 then
    (low_free_bit, bwrite d FREE_INODE_BLOCK_NUM (set_free inode_map low_free_bit.toNat 1))
  else
    (low_free_bit, d)

theorem find_free_from_spec (block : Block) : ∀ (k i : Nat),
    (find_free_from block i k = -1 ∧ ∀ j, i ≤ j → j < i + k → getBit block j = true) ∨
    (∃ m : Nat, find_free_from block i k = (m : Int) ∧ i ≤ m ∧ m < i + k ∧
      getBit block m = false ∧ ∀ j, i ≤ j → j < m → getBit block j = true) := by
  intro k
  induction k with
  | zero =>
    intro i
    exact Or.inl ⟨rfl, fun j h1 h2 => absurd h2 (by omega)⟩
  | succ k ih =>
    intro i
    by_cases hb : getBit block i = false
    · refine Or.inr ⟨i, ?_, le_refl i, by omega, hb, fun j h1 h2 => absurd h2 (by omega)⟩
      simp [find_free_from, hb]
    · have hbt : getBit block i = true := by
        cases h : getBit block i
        · exact absurd h hb
        · rfl
      have hstep : find_free_from block i (k + 1) = find_free_from block (i + 1) k := by
        simp [find_free_from, hbt]
      rcases ih (i + 1) with ⟨hres, hall⟩ | ⟨m, hres, hm1, hm2, hm3, hm4⟩
      · refine Or.inl ⟨hstep.trans hres, fun j h1 h2 => ?_⟩
        rcases Nat.eq_or_lt_of_le h1 with heq | hlt
        · exact heq ▸ hbt
        · exact hall j hlt (by omega)
      · refine Or.inr ⟨m, hstep.trans hres, by omega, by omega, hm3, fun j h1 h2 => ?_⟩
        rcases Nat.eq_or_lt_of_le h1 with heq | hlt
        · exact heq ▸ hbt
        · exact hm4 j hlt h2

theorem find_free_eq_neg_one_iff (block : Block) :
    find_free block = -1 ↔ ∀ j, j < BLOCK_SIZE * 8 → getBit block j = true := by
  constructor
  · intro h
    rcases find_free_from_spec block (BLOCK_SIZE * 8) 0 with ⟨_, hall⟩ | ⟨m, hres, _, _, hm3, _⟩
    · intro j hj
      exact hall j (Nat.zero_le j) (by omega)
    · rw [find_free] at h
      rw [h] at hres
      omega
  · intro h
    rcases find_free_from_spec block (BLOCK_SIZE * 8) 0 with ⟨hres, _⟩ | ⟨m, _, _, hm2, hm3, _⟩
    · exact hres
    · have := h m (by omega)
      rw [this] at hm3
      exact absurd hm3 (by simp)

theorem find_free_eq_coe_elim (block : Block) (k : Nat) (h : find_free block = (k : Int)) :
    getBit block k = false ∧ k < BLOCK_SIZE * 8 ∧
      ∀ j, j < k → getBit block j = true := by
  rcases find_free_from_spec block (BLOCK_SIZE * 8) 0 with ⟨hres, _⟩ | ⟨m, hres, _, hm2, hm3, hm4⟩
  · rw [find_free] at h
    rw [h] at hres
    omega
  · rw [find_free] at h
    rw [h] at hres
    have hmk : m = k := by omega
    subst hmk
    exact ⟨hm3, by omega, fun j hj => hm4 j (Nat.zero_le j) hj⟩

theorem find_free_of_least (block : Block) (k : Nat) (hk : k < BLOCK_SIZE * 8)
    (hfree : getBit block k = false) (hlow : ∀ j, j < k → getBit block j = true) :
    find_free block = (k : Int) := by
  rcases find_free_from_spec block (BLOCK_SIZE * 8) 0 with ⟨hres, hall⟩ | ⟨m, hres, _, hm2, hm3, hm4⟩
  · have := hall k (Nat.zero_le k) (by omega)
    rw [this] at hfree
    exact absurd hfree (by simp)
  · have hmk : m = k := by
      rcases Nat.lt_trichotomy m k with h | h | h
      · have := hlow m h
        rw [this] at hm3
        exact absurd hm3 (by simp)
      · exact h
      · have := hm4 k (Nat.zero_le k) h
        rw [this] at hfree
        exact absurd hfree (by simp)
    subst hmk
    exact hres

theorem getBit_set_free_self (block : Block) (m : Nat) :
    getBit (set_free block m 1) m = true := by
  simp only [getBit, set_free, if_pos rfl]
  simp [Nat.testBit_lor, Nat.testBit_two_pow_self]

theorem getBit_set_free_other (block : Block) (m j : Nat) (hne : j ≠ m) :
    getBit (set_free block m 1) j = getBit block j := by
  simp only [getBit, set_free]
  by_cases hbyte : j / 8 = m / 8
  · rw [if_pos hbyte, if_neg (by omega)]
    have hbit : m % 8 ≠ j % 8 := by omega
    rw [Nat.testBit_lor, Nat.testBit_two_pow_of_ne hbit, Bool.or_false, hbyte]
  · rw [if_neg hbyte]

theorem ialloc_fst (d : Disk) : (ialloc d).1 = find_free (d FREE_INODE_BLOCK_NUM) := by
  by_cases h : find_free (d FREE_INODE_BLOCK_NUM) ≠ -1
  · simp [ialloc, bread, h]
  · simp [ialloc, bread, h]

theorem ialloc_success_core (d : Disk) (k : Nat) (hk : k < BLOCK_SIZE * 8)
    (hfree : getBit (d FREE_INODE_BLOCK_NUM) k = false)
    (hlow : ∀ j, j < k → getBit (d FREE_INODE_BLOCK_NUM) j = true) :
    (ialloc d).1 = (k : Int) ∧
    getBit ((ialloc d).2 FREE_INODE_BLOCK_NUM) k = true ∧
    (∀ j, j ≠ k → getBit ((ialloc d).2 FREE_INODE_BLOCK_NUM) j = getBit (d FREE_INODE_BLOCK_NUM) j) ∧
    (∀ b, b ≠ FREE_INODE_BLOCK_NUM → (ialloc d).2 b = d b) := by
  have hff : find_free (d FREE_INODE_BLOCK_NUM) = (k : Int) :=
    find_free_of_least _ k hk hfree hlow
  have hne : find_free (d FREE_INODE_BLOCK_NUM) ≠ -1 := by omega
  have h2 : (ialloc d).2 = bwrite d FREE_INODE_BLOCK_NUM
      (set_free (d FREE_INODE_BLOCK_NUM) (find_free (d FREE_INODE_BLOCK_NUM)).toNat 1) := by
    simp [ialloc, bread, hne]
  have htn : (find_free (d FREE_INODE_BLOCK_NUM)).toNat = k := by omega
  refine ⟨by rw [ialloc_fst, hff], ?_, ?_, ?_⟩
  · rw [h2, htn]
    simp only [bwrite, if_pos rfl]
    exact getBit_set_free_self _ k
  · intro j hj
    rw [h2, htn]
    simp only [bwrite, if_pos rfl]
    exact getBit_set_free_other _ k j hj
  · intro b hb
    rw [h2]
    simp [bwrite, hb]

/-- C1: `ialloc` follows exactly the four-step algorithm: it reads the inode
free-bitmap block, scans it for the lowest free bit, and when bit `k` is the
lowest free bit it returns `k` as the new inode number after marking bit `k`
allocated in the bitmap block and synchronously writing that block back to
disk (the returned disk state already holds the updated bitmap; every other
bit and every other block is untouched). -/
theorem ialloc_success_spec (d : Disk) (k : Nat) (hk : k < BLOCK_SIZE * 8)
    (hfree : getBit (d FREE_INODE_BLOCK_NUM) k = false)
    (hlow : ∀ j, j < k → getBit (d FREE_INODE_BLOCK_NUM) j = true) :
    (ialloc d).1 = (k : Int) ∧
    getBit ((ialloc d).2 FREE_INODE_BLOCK_NUM) k = true ∧
    (∀ j, j ≠ k → getBit ((ialloc d).2 FREE_INODE_BLOCK_NUM) j = getBit (d FREE_INODE_BLOCK_NUM) j) ∧
    (∀ b, b ≠ FREE_INODE_BLOCK_NUM → (ialloc d).2 b = d b) :=
  ialloc_success_core d k hk hfree hlow

theorem ialloc_success_spec_witness :
    0 < BLOCK_SIZE * 8 ∧
    getBit ((fun _ => fun _ => 0 : Disk) FREE_INODE_BLOCK_NUM) 0 = false ∧
    (ialloc (fun _ => fun _ => 0)).1 = ((0 : Nat) : Int) ∧
    getBit ((ialloc (fun _ => fun _ => 0)).2 FREE_INODE_BLOCK_NUM) 0 = true := by
  have h := ialloc_success_spec (fun _ => fun _ => 0) 0 (by decide) (by decide)
    (fun j hj => absurd hj (by omega))
  exact ⟨by decide, by decide, h.1, h.2.1⟩

/-- C2: when the inode free bitmap has no free bit (all bits 1), `ialloc`
returns -1 (the not-found signal) and performs no write: the disk is
returned unchanged. -/
theorem ialloc_exhausted (d : Disk)
    (hall : ∀ j, j < BLOCK_SIZE * 8 → getBit (d FREE_INODE_BLOCK_NUM) j = true) :
    ialloc d = (-1, d) := by
  have hff : find_free (d FREE_INODE_BLOCK_NUM) = -1 :=
    (find_free_eq_neg_one_iff _).mpr hall
  simp [ialloc, bread, hff]

theorem ialloc_exhausted_witness :
    (∀ j, j < BLOCK_SIZE * 8 → getBit ((fun _ => fun _ => 255 : Disk) FREE_INODE_BLOCK_NUM) j = true) ∧
    ialloc (fun _ => fun _ => 255) = (-1, fun _ => fun _ => 255) := by
  have hall : ∀ j, j < BLOCK_SIZE * 8 →
      getBit ((fun _ => fun _ => 255 : Disk) FREE_INODE_BLOCK_NUM) j = true := by
    intro j hj
    show (255 : Nat).testBit (j % 8) = true
    have h8 : j % 8 < 8 := Nat.mod_lt j (by omega)
    have h255 : (255 : Nat) = 2 ^ 8 - 1 := by norm_num
    rw [h255, Nat.testBit_two_pow_sub_one]
    simpa using h8
  exact ⟨hall, ialloc_exhausted _ hall⟩

/-- C10: the concrete not-found signal of `ialloc` is -1: `ialloc` returns
-1 exactly when the bitmap scan finds no free bit, and otherwise a
non-negative bit index (below the block's bit capacity). -/
theorem ialloc_not_found_signal (d : Disk) :
    ((ialloc d).1 = -1 ↔ ∀ j, j < BLOCK_SIZE * 8 → getBit (d FREE_INODE_BLOCK_NUM) j = true) ∧
    ((ialloc d).1 ≠ -1 → 0 ≤ (ialloc d).1 ∧ (ialloc d).1 < BLOCK_SIZE * 8) := by
  rw [ialloc_fst]
  constructor
  · exact find_free_eq_neg_one_iff _
  · intro hne
    rcases find_free_from_spec (d FREE_INODE_BLOCK_NUM) (BLOCK_SIZE * 8) 0 with ⟨hres, _⟩ | ⟨m, hres, _, hm2, _, _⟩
    · exact absurd hres hne
    · rw [find_free, hres]
      omega

theorem ialloc_not_found_signal_witness :
    ((ialloc (fun _ => fun _ => 0)).1 ≠ -1) ∧
    0 ≤ (ialloc (fun _ => fun _ => 0)).1 ∧ (ialloc (fun _ => fun _ => 0)).1 < BLOCK_SIZE * 8 := by
  refine ⟨by decide, (ialloc_not_found_signal (fun _ => fun _ => 0)).2 (by decide)⟩

/-- Disk state after the first `ialloc` call followed by `n` further calls. -/
def iallocIter (d : Disk) : Nat → Disk
  | 0 => (ialloc d).2
  | n + 1 => (ialloc (iallocIter d n)).2

theorem ialloc_preserves_set (d : Disk) (j : Nat)
    (h : getBit (d FREE_INODE_BLOCK_NUM) j = true) :
    getBit ((ialloc d).2 FREE_INODE_BLOCK_NUM) j = true := by
  by_cases hff : find_free (d FREE_INODE_BLOCK_NUM) ≠ -1
  · rcases find_free_from_spec (d FREE_INODE_BLOCK_NUM) (BLOCK_SIZE * 8) 0 with ⟨hres, _⟩ | ⟨m, hres, _, _, _, _⟩
    · exact absurd hres hff
    · have h2 : (ialloc d).2 FREE_INODE_BLOCK_NUM =
          set_free (d FREE_INODE_BLOCK_NUM) m 1 := by
        have hmm : (find_free (d FREE_INODE_BLOCK_NUM)).toNat = m := by
          rw [find_free, hres]
          omega
        simp [ialloc, bread, hff, bwrite, hmm]
      rw [h2]
      by_cases hjm : j = m
      · subst hjm
        exact getBit_set_free_self _ j
      · rw [getBit_set_free_other _ m j hjm]
        exact h
  · have h2 : (ialloc d).2 = d := by simp [ialloc, bread, hff]
    rw [h2]
    exact h

theorem ialloc_result_bit_set (d : Disk) (k : Nat) (h : (ialloc d).1 = (k : Int)) :
    getBit ((ialloc d).2 FREE_INODE_BLOCK_NUM) k = true := by
  rw [ialloc_fst] at h
  obtain ⟨hfree, hk, hlow⟩ := find_free_eq_coe_elim _ k h
  exact (ialloc_success_core d k hk hfree hlow).2.1

theorem ialloc_no_reuse_of_set (d : Disk) (k : Nat)
    (h : getBit (d FREE_INODE_BLOCK_NUM) k = true) :
    (ialloc d).1 ≠ (k : Int) := by
  intro hcontra
  rw [ialloc_fst] at hcontra
  obtain ⟨hfree, _, _⟩ := find_free_eq_coe_elim _ k hcontra
  rw [h] at hfree
  exact absurd hfree (by simp)

/-- C3: after `ialloc` returns inode number `k`, no subsequent `ialloc` call
in the session returns `k` again (no deallocation path exists in this core,
so bit `k` stays set on the persisted bitmap forever). -/
theorem ialloc_monotonic (d : Disk) (k : Nat) (h : (ialloc d).1 = (k : Int)) :
    ∀ n, (ialloc (iallocIter d n)).1 ≠ (k : Int) := by
  have hinv : ∀ n, getBit (iallocIter d n FREE_INODE_BLOCK_NUM) k = true := by
    intro n
    induction n with
    | zero => exact ialloc_result_bit_set d k h
    | succ n ih => exact ialloc_preserves_set (iallocIter d n) k ih
  intro n
  exact ialloc_no_reuse_of_set (iallocIter d n) k (hinv n)

theorem ialloc_monotonic_witness :
    (ialloc (fun _ => fun _ => 0)).1 = ((0 : Nat) : Int) ∧
    ∀ n, (ialloc (iallocIter (fun _ => fun _ => 0) n)).1 ≠ ((0 : Nat) : Int) := by
  refine ⟨by decide, ialloc_monotonic (fun _ => fun _ => 0) 0 (by decide)⟩

/-- Inode record size in bytes, from the commented layout in `Project_5-6/inode.c`. -/
def INODE_SIZE : Nat := 64

/-- First block of the inode table, from the commented layout in `Project_5-6/inode.c`. -/
def INODE_FIRST_BLOCK : Nat := 3

/-- Inodes per block, from the commented layout in `Project_5-6/inode.c`. -/
def INODES_PER_BLOCK : Nat := BLOCK_SIZE / INODE_SIZE

/-- Number of direct block pointers per inode, from the commented layout in
`Project_5-6/inode.c`. -/
def INODE_PTR_COUNT : Nat := 16

/-- Capacity of the in-core inode array, from the commented layout in
`Project_5-6/inode.c`. -/
def MAX_SYS_OPEN_FILES : Nat := 64

/-- Modelled from the spec: the in-core `struct inode` of `inode.h` is given
only as commented text in `Project_5-6/inode.c`: the on-disk fields (size,
owner id, permissions, flags, link count, 16 block pointers) plus the two
in-core-only fields `ref_count` and `inode_num`. -/
structure Inode where
  size : Nat
  owner_id : Nat
  permissions : Nat
  flags : Nat
  link_count : Nat
  block_ptr : List Nat
  ref_count : Nat
  inode_num : Nat
  deriving DecidableEq

/-- A zero-initialized in-core inode, matching the static zero-initialized
`incore` array of `Project_5-6/inode.c`. -/
def emptyInode : Inode :=
  { size := 0, owner_id := 0, permissions := 0, flags := 0, link_count := 0,
    block_ptr := List.replicate INODE_PTR_COUNT 0, ref_count := 0, inode_num := 0 }

/-- The process-wide mutable state the inode layer touches: the disk image
and the in-core inode array (slots addressed by index). -/
structure FsState where
  disk : Disk
  incore : List Inode

/-- Translation of `ialloc` of `Project_5-6/inode.c` over the full state,
instrumented with the list of block numbers read and written so that its
disk footprint is part of the result. -/
def iallocS (s : FsState) : Int × FsState × List Nat × List Nat :=
  let inode_map := bread s.disk FREE_INODE_BLOCK_NUM
  let low_free_bit := find_free inode_map
  if low_free_bit ≠ -1 then
    (low_free_bit,
      { disk := bwrite s.disk FREE_INODE_BLOCK_NUM (set_free inode_map low_free_bit.toNat 1),
        incore := s.incore },
      [FREE_INODE_BLOCK_NUM], [FREE_INODE_BLOCK_NUM])
  else
    (low_free_bit, s, [FREE_INODE_BLOCK_NUM], [])

/-- C9: frame property of `ialloc`: every call reads exactly one disk block
(the inode free-bitmap block), writes at most that same block and only in
the success case, leaves the in-core inode array untouched, and leaves
every other disk block unchanged; on failure the whole state is unchanged. -/
theorem ialloc_frame (s : FsState) :
    (iallocS s).2.2.1 = [FREE_INODE_BLOCK_NUM] ∧
    ((iallocS s).1 ≠ -1 → (iallocS s).2.2.2 = [FREE_INODE_BLOCK_NUM]) ∧
    ((iallocS s).1 = -1 → (iallocS s).2.2.2 = [] ∧ (iallocS s).2.1 = s) ∧
    ((iallocS s).2.1).incore = s.incore ∧
    (∀ b, b ≠ FREE_INODE_BLOCK_NUM → ((iallocS s).2.1).disk b = s.disk b) := by
  by_cases hff : find_free (s.disk FREE_INODE_BLOCK_NUM) ≠ -1
  · have hfst : (iallocS s).1 = find_free (s.disk FREE_INODE_BLOCK_NUM) := by
      simp [iallocS, bread, hff]
    refine ⟨by simp [iallocS, bread, hff], fun _ => by simp [iallocS, bread, hff], ?_, ?_, ?_⟩
    · intro hm1
      rw [hfst] at hm1
      exact absurd hm1 hff
    · simp [iallocS, bread, hff]
    · intro b hb
      simp [iallocS, bread, hff, bwrite, hb]
  · refine ⟨by simp [iallocS, bread, hff], ?_, fun _ => by simp [iallocS, bread, hff], ?_, ?_⟩
    · intro hm1
      have hfst : (iallocS s).1 = find_free (s.disk FREE_INODE_BLOCK_NUM) := by
        simp [iallocS, bread, hff]
      rw [hfst] at hm1
      exact absurd (not_not.mp hff) hm1
    · simp [iallocS, bread, hff]
    · intro b hb
      simp [iallocS, bread, hff]

theorem ialloc_frame_witness :
    ((iallocS { disk := fun _ => fun _ => 0, incore := [] }).1 ≠ -1) ∧
    (iallocS { disk := fun _ => fun _ => 0, incore := [] }).2.2.2 = [FREE_INODE_BLOCK_NUM] := by
  refine ⟨by decide, (ialloc_frame _).2.1 (by decide)⟩

/-- Modelled from the spec: the inode-number-to-disk-location mapping is
given only as commented-out code in `Project_5-6/inode.c` (lines 22-41):
`block_num = inode_num / INODES_PER_BLOCK + INODE_FIRST_BLOCK` and
`block_offset_bytes = (inode_num % INODES_PER_BLOCK) * INODE_SIZE`. -/
def locate (inode_num : Nat) : Nat × Nat :=
  let block_num := inode_num / INODES_PER_BLOCK + INODE_FIRST_BLOCK
  let block_offset := inode_num % INODES_PER_BLOCK
  let block_offset_bytes := block_offset * INODE_SIZE
  (block_num, block_offset_bytes)

/-- C4: for every valid inode number `n` (four inode blocks of 64 inodes
each), `locate n` returns block number `n / inodesPerBlock + firstInodeBlock`
and byte offset `(n mod inodesPerBlock) * 64`, where
`inodesPerBlock = 4096 / 64 = 64`. -/
theorem locate_formula (n : Nat) (hn : n < 256) :
    locate n = (n / INODES_PER_BLOCK + INODE_FIRST_BLOCK, n % INODES_PER_BLOCK * 64) ∧
    INODES_PER_BLOCK = BLOCK_SIZE / INODE_SIZE ∧ INODES_PER_BLOCK = 64 ∧
    locate n = (n / 64 + 3, n % 64 * 64) := by
  refine ⟨rfl, rfl, rfl, ?_⟩
  simp [locate, INODES_PER_BLOCK, BLOCK_SIZE, INODE_SIZE, INODE_FIRST_BLOCK]

theorem locate_formula_witness :
    5 < 256 ∧ locate 5 = (3, 320) := by
  refine ⟨by decide, ?_⟩
  have h := (locate_formula 5 (by decide)).2.2.2
  rw [h]

/-- Modelled from the spec: `pack.c` is not among the given sources; the
byte-accessor capability writes a fixed-width unsigned integer at a byte
offset of a raw block buffer.  One byte. -/
def write_u8 (block : Block) (off v : Nat) : Block :=
  fun i => if i = off then v % 256 else block i

/-- Modelled from the spec: byte-accessor capability, one byte read. -/
def read_u8 (block : Block) (off : Nat) : Nat := block off % 256

/-- Modelled from the spec: byte-accessor capability, two-byte write
(low byte first). -/
def write_u16 (block : Block) (off v : Nat) : Block :=
  write_u8 (write_u8 block off v) (off + 1) (v / 256)

/-- Modelled from the spec: byte-accessor capability, two-byte read. -/
def read_u16 (block : Block) (off : Nat) : Nat :=
  read_u8 block off + 256 * read_u8 block (off + 1)

/-- Modelled from the spec: byte-accessor capability, four-byte write
(low byte first). -/
def write_u32 (block : Block) (off v : Nat) : Block :=
  write_u8 (write_u8 (write_u8 (write_u8 block off v) (off + 1) (v / 256)) (off + 2) (v / 65536)) (off + 3) (v / 16777216)

/-- Modelled from the spec: byte-accessor capability, four-byte read. -/
def read_u32 (block : Block) (off : Nat) : Nat :=
  read_u8 block off + 256 * read_u8 block (off + 1) + 65536 * read_u8 block (off + 2) + 16777216 * read_u8 block (off + 3)

/-- Modelled from the spec: serialize the 16 two-byte block pointers at
consecutive two-byte offsets. -/
def writePtrs (block : Block) (off : Nat) : List Nat → Block
  | [] => block
  | p :: ps => writePtrs (write_u16 block off p) (off + 2) ps

/-- Modelled from the spec: deserialize `k` two-byte block pointers at
consecutive two-byte offsets. -/
def readPtrs (block : Block) (off : Nat) : Nat → List Nat
  | 0 => []
  | k + 1 => read_u16 block off :: readPtrs block (off + 2) k

/-- Modelled from the spec: `write_inode`'s packing step, described only in
the commented text of `Project_5-6/inode.c` and the design's field table:
size u32 at offset 0, owner id u16 at 4, permissions u8 at 6, flags u8 at 7,
link count u8 at 8, then 16 contiguous u16 block pointers from offset 9.
The in-core-only fields `ref_count` and `inode_num` are not written. -/
def write_inode_fields (block : Block) (off : Nat) (r : Inode) : Block :=
  writePtrs
    (write_u8
      (write_u8
        (write_u8
          (write_u16 (write_u32 block off r.size) (off + 4) r.owner_id)
          (off + 6) r.permissions)
        (off + 7) r.flags)
      (off + 8) r.link_count)
    (off + 9) r.block_ptr

/-- Modelled from the spec: `read_inode`'s unpacking step: read each
on-disk field at its fixed sub-offset into the in-core record, leaving the
in-core-only fields `ref_count` and `inode_num` as they were in `in0`. -/
def read_inode_fields (block : Block) (off : Nat) (in0 : Inode) : Inode :=
  { size := read_u32 block off,
    owner_id := read_u16 block (off + 4),
    permissions := read_u8 block (off + 6),
    flags := read_u8 block (off + 7),
    link_count := read_u8 block (off + 8),
    block_ptr := readPtrs block (off + 9) INODE_PTR_COUNT,
    ref_count := in0.ref_count,
    inode_num := in0.inode_num }

/-- Modelled from the spec: `read_inode(in, inode_num)` as described in the
commented text of `Project_5-6/inode.c`: locate the block and offset, read
the block from disk, unpack the on-disk fields. -/
def read_inode (d : Disk) (inode_num : Nat) (in0 : Inode) : Inode :=
  read_inode_fields (bread d (locate inode_num).1) (locate inode_num).2 in0

/-- Modelled from the spec: `write_inode(in)` as described in the commented
text of `Project_5-6/inode.c`: locate the block and offset from the
record's `inode_num`, read the block from disk, pack the on-disk fields
into it, write the block back. -/
def write_inode (d : Disk) (r : Inode) : Disk :=
  bwrite d (locate r.inode_num).1
    (write_inode_fields (bread d (locate r.inode_num).1) (locate r.inode_num).2 r)

/-- Modelled from the spec: `find_incore_free` as described in the
commented text of `Project_5-6/inode.c`: first slot with reference count 0,
as an index into the in-core array, or none. -/
def find_incore_free : List Inode → Option Nat
  | [] => none
  | x :: xs =>
    if x.ref_count = 0 then some 0
    else Option.map (fun j => j + 1) (find_incore_free xs)

/-- Modelled from the spec: `find_incore` as described in the commented
text of `Project_5-6/inode.c`: first slot with nonzero reference count and
matching inode number, as an index into the in-core array, or none. -/
def find_incore (inode_num : Nat) : List Inode → Option Nat
  | [] => none
  | x :: xs =>
    if x.ref_count ≠ 0 ∧ x.inode_num = inode_num then some 0
    else Option.map (fun j => j + 1) (find_incore inode_num xs)

/-- Modelled from the spec: `iget(inode_num)` as described in the commented
text of `Project_5-6/inode.c`: on a cache hit increment the reference count
and return the slot; on a miss take a free slot (none means cache
exhausted), read the inode from disk into it, set its reference count to 1
and its inode number, and return it.  The final component counts the disk
block reads the call performs. -/
def iget (s : FsState) (inode_num : Nat) : Option Nat × FsState × Nat :=
  match find_incore inode_num s.incore with
  | some h =>
    let in_ := s.incore.getD h emptyInode
    (some h,
      { disk := s.disk, incore := s.incore.set h { in_ with ref_count := in_.ref_count + 1 } },
      0)
  | none =>
    match find_incore_free s.incore with
    | none => (none, s, 0)
    | some h =>
      let in0 := s.incore.getD h emptyInode
      let loaded := read_inode s.disk inode_num in0
      (some h,
        { disk := s.disk,
          incore := s.incore.set h { loaded with ref_count := 1, inode_num := inode_num } },
        1)

/-- Modelled from the spec: `iput(in)` as described in the commented text
of `Project_5-6/inode.c`: if the slot's reference count is already 0 do
nothing; otherwise decrement it, and if it reached 0 write the inode to
disk.  The final component counts the disk block writes the call performs. -/
def iput (s : FsState) (h : Nat) : FsState × Nat :=
  let in_ := s.incore.getD h emptyInode
  if in_.ref_count = 0 then (s, 0)
  else
    let in' : Inode := { in_ with ref_count := in_.ref_count - 1 }
    if in'.ref_count = 0 then
      ({ disk := write_inode s.disk in', incore := s.incore.set h in' }, 1)
    else
      ({ disk := s.disk, incore := s.incore.set h in' }, 0)

/-- C7: `iput` applied to a slot whose reference count is already 0 is a
no-op: the state (reference count included) is unchanged, no disk write
occurs, and no error is raised. -/
theorem iput_free_noop (s : FsState) (h : Nat)
    (h0 : (s.incore.getD h emptyInode).ref_count = 0) :
    iput s h = (s, 0) := by
  simp only [iput]
  rw [if_pos h0]

theorem iput_free_noop_witness :
    ((List.replicate 3 emptyInode).getD 0 emptyInode).ref_count = 0 ∧
    iput { disk := fun _ => fun _ => 0, incore := List.replicate 3 emptyInode } 0 =
      ({ disk := fun _ => fun _ => 0, incore := List.replicate 3 emptyInode }, 0) := by
  refine ⟨by decide, iput_free_noop _ 0 (by decide)⟩

theorem find_incore_free_some_lt : ∀ (l : List Inode) (h : Nat),
    find_incore_free l = some h → h < l.length := by
  intro l
  induction l with
  | nil =>
    intro h hc
    simp [find_incore_free] at hc
  | cons x xs ih =>
    intro h hc
    by_cases hx : x.ref_count = 0
    · simp [find_incore_free, hx] at hc
      simp [List.length_cons]
      omega
    · simp [find_incore_free, hx] at hc
      obtain ⟨j, hj, hjh⟩ := hc
      have := ih j hj
      simp [List.length_cons]
      omega

theorem getD_set_self : ∀ (l : List Inode) (h : Nat) (x y : Inode),
    h < l.length → (l.set h x).getD h y = x := by
  intro l
  induction l with
  | nil =>
    intro h x y hlt
    simp at hlt
  | cons a as ih =>
    intro h x y hlt
    cases h with
    | zero => rfl
    | succ h =>
      have hstep : (a :: as).set (h + 1) x = a :: as.set h x := rfl
      rw [hstep, List.getD_cons_succ]
      exact ih h x y (by simpa using hlt)

theorem find_incore_set_of_none : ∀ (l : List Inode) (n h : Nat) (x : Inode),
    find_incore n l = none → h < l.length → x.ref_count ≠ 0 → x.inode_num = n →
    find_incore n (l.set h x) = some h := by
  intro l
  induction l with
  | nil =>
    intro n h x hnone hlt
    simp at hlt
  | cons a as ih =>
    intro n h x hnone hlt hrc hnum
    have hna : ¬(a.ref_count ≠ 0 ∧ a.inode_num = n) := by
      intro hcon
      simp [find_incore, hcon] at hnone
    have hrest : find_incore n as = none := by
      simp [find_incore, hna] at hnone
      exact hnone
    cases h with
    | zero =>
      have hstep : (a :: as).set 0 x = x :: as := rfl
      rw [hstep]
      simp [find_incore, hrc, hnum]
    | succ h =>
      have hstep : (a :: as).set (h + 1) x = a :: as.set h x := rfl
      rw [hstep]
      simp [find_incore, hna, ih n h x hrest (by simpa using hlt) hrc hnum]

theorem iget_hit_eq (s : FsState) (n h : Nat)
    (hhit : find_incore n s.incore = some h) :
    iget s n = (some h,
      { disk := s.disk,
        incore := s.incore.set h
          { s.incore.getD h emptyInode with
              ref_count := (s.incore.getD h emptyInode).ref_count + 1 } },
      0) := by
  simp only [iget]
  rw [hhit]

theorem iget_miss_load_eq (s : FsState) (n h : Nat)
    (hmiss : find_incore n s.incore = none)
    (hff : find_incore_free s.incore = some h) :
    iget s n = (some h,
      { disk := s.disk,
        incore := s.incore.set h
          { read_inode s.disk n (s.incore.getD h emptyInode) with
              ref_count := 1, inode_num := n } },
      1) := by
  simp only [iget]
  rw [hmiss, hff]

theorem iget_miss_full_eq (s : FsState) (n : Nat)
    (hmiss : find_incore n s.incore = none)
    (hff : find_incore_free s.incore = none) :
    iget s n = (none, s, 0) := by
  simp only [iget]
  rw [hmiss, hff]

/-- C6: calling `iget n` twice in a row (starting with `n` not in core, so
the first call loads it) without an intervening `iput` returns the same
cache slot both times, leaves the slot's reference count at 2, and the
second call performs no disk access: its read count is 0 and the disk is
untouched. -/
theorem iget_twice_shares_slot (s : FsState) (n h : Nat)
    (hmiss : find_incore n s.incore = none)
    (h1 : (iget s n).1 = some h) :
    (iget (iget s n).2.1 n).1 = some h ∧
    (iget (iget s n).2.1 n).2.2 = 0 ∧
    ((iget (iget s n).2.1 n).2.1).disk = ((iget s n).2.1).disk ∧
    (((iget (iget s n).2.1 n).2.1).incore.getD h emptyInode).ref_count = 2 := by
  cases hff : find_incore_free s.incore with
  | none =>
    exfalso
    rw [iget_miss_full_eq s n hmiss hff] at h1
    exact Option.noConfusion h1
  | some h0 =>
    have heq1 := iget_miss_load_eq s n h0 hmiss hff
    have hh : h0 = h := by
      rw [heq1] at h1
      exact Option.some.inj h1
    subst hh
    have hlt : h0 < s.incore.length := find_incore_free_some_lt s.incore h0 hff
    have hs1 : (iget s n).2.1 =
        { disk := s.disk,
          incore := s.incore.set h0
            { read_inode s.disk n (s.incore.getD h0 emptyInode) with
                ref_count := 1, inode_num := n } } := by
      rw [heq1]
    have hhit : find_incore n ((iget s n).2.1).incore = some h0 := by
      rw [hs1]
      exact find_incore_set_of_none s.incore n h0 _ hmiss hlt (by simp) rfl
    have hget1 : ((iget s n).2.1).incore.getD h0 emptyInode =
        { read_inode s.disk n (s.incore.getD h0 emptyInode) with
            ref_count := 1, inode_num := n } := by
      rw [hs1]
      exact getD_set_self s.incore h0 _ emptyInode hlt
    have heq2 := iget_hit_eq ((iget s n).2.1) n h0 hhit
    have hlen1 : ((iget s n).2.1).incore.length = s.incore.length := by
      rw [hs1]
      exact List.length_set s.incore h0 _
    refine ⟨by rw [heq2], by rw [heq2], by rw [heq2], ?_⟩
    rw [heq2]
    show ((((iget s n).2.1).incore.set h0
      { ((iget s n).2.1).incore.getD h0 emptyInode with
          ref_count := (((iget s n).2.1).incore.getD h0 emptyInode).ref_count + 1 }).getD h0 emptyInode).ref_count = 2
    rw [getD_set_self _ h0 _ emptyInode (by rw [hlen1]; exact hlt)]
    rw [hget1]

theorem iget_twice_shares_slot_witness :
    find_incore 5 (List.replicate 64 emptyInode) = none ∧
    (iget { disk := fun _ => fun _ => 0, incore := List.replicate 64 emptyInode } 5).1 = some 0 ∧
    (((iget (iget { disk := fun _ => fun _ => 0, incore := List.replicate 64 emptyInode } 5).2.1 5).2.1).incore.getD 0 emptyInode).ref_count = 2 := by
  refine ⟨by decide, by decide, (iget_twice_shares_slot _ 5 0 (by decide) (by decide)).2.2.2⟩

theorem write_u8_apply_self (block : Block) (off v : Nat) :
    write_u8 block off v off = v % 256 := by
  simp [write_u8]

theorem write_u8_apply_ne (block : Block) (off v i : Nat) (h : ¬ i = off) :
    write_u8 block off v i = block i := by
  simp [write_u8, h]

theorem writePtrs_apply_lt : ∀ (ps : List Nat) (block : Block) (off i : Nat),
    i < off → writePtrs block off ps i = block i := by
  intro ps
  induction ps with
  | nil =>
    intro block off i hi
    rfl
  | cons p ps ih =>
    intro block off i hi
    show writePtrs (write_u16 block off p) (off + 2) ps i = block i
    rw [ih (write_u16 block off p) (off + 2) i (by omega)]
    simp only [write_u16]
    rw [write_u8_apply_ne _ _ _ _ (by omega), write_u8_apply_ne _ _ _ _ (by omega)]

theorem read_u16_write_u16_self (block : Block) (off v : Nat) :
    read_u16 (write_u16 block off v) off = v % 65536 := by
  simp only [read_u16, read_u8, write_u16]
  rw [write_u8_apply_ne _ _ _ _ (by omega), write_u8_apply_self, write_u8_apply_self]
  omega

theorem readPtrs_writePtrs : ∀ (ps : List Nat) (block : Block) (off : Nat),
    readPtrs (writePtrs block off ps) off ps.length = ps.map (fun p => p % 65536) := by
  intro ps
  induction ps with
  | nil =>
    intro block off
    rfl
  | cons p ps ih =>
    intro block off
    show readPtrs (writePtrs (write_u16 block off p) (off + 2) ps) off (ps.length + 1) =
      (p % 65536) :: ps.map (fun p => p % 65536)
    rw [readPtrs]
    congr 1
    · have hb0 : writePtrs (write_u16 block off p) (off + 2) ps off =
        write_u16 block off p off := writePtrs_apply_lt ps _ _ _ (by omega)
      have hb1 : writePtrs (write_u16 block off p) (off + 2) ps (off + 1) =
        write_u16 block off p (off + 1) := writePtrs_apply_lt ps _ _ _ (by omega)
      have hself := read_u16_write_u16_self block off p
      simp only [read_u16, read_u8] at hself ⊢
      rw [hb0, hb1]
      exact hself
    · exact ih (write_u16 block off p) (off + 2)

theorem map_mod_eq_self : ∀ (ps : List Nat), (∀ p ∈ ps, p < 65536) →
    ps.map (fun p => p % 65536) = ps := by
  intro ps
  induction ps with
  | nil =>
    intro hall
    rfl
  | cons p ps ih =>
    intro hall
    have hp : p < 65536 := hall p (List.mem_cons_self p ps)
    simp only [List.map_cons]
    rw [Nat.mod_eq_of_lt hp, ih (fun q hq => hall q (List.mem_cons_of_mem p hq))]

theorem read_u32_roundtrip_size (block : Block) (off : Nat) (r : Inode)
    (hsz : r.size < 4294967296) :
    read_u32 (write_inode_fields block off r) off = r.size := by
  simp only [write_inode_fields, read_u32, read_u8]
  rw [writePtrs_apply_lt _ _ _ _ (by omega), writePtrs_apply_lt _ _ _ _ (by omega),
      writePtrs_apply_lt _ _ _ _ (by omega), writePtrs_apply_lt _ _ _ _ (by omega)]
  simp only [write_u16, write_u32]
  simp [write_u8, Nat.add_assoc]
  omega

theorem read_u16_roundtrip_owner (block : Block) (off : Nat) (r : Inode)
    (how : r.owner_id < 65536) :
    read_u16 (write_inode_fields block off r) (off + 4) = r.owner_id := by
  simp only [write_inode_fields, read_u16, read_u8]
  rw [writePtrs_apply_lt _ _ _ _ (by omega), writePtrs_apply_lt _ _ _ _ (by omega)]
  simp only [write_u16, write_u32]
  simp [write_u8, Nat.add_assoc]
  omega

theorem read_u8_roundtrip_permissions (block : Block) (off : Nat) (r : Inode)
    (hpm : r.permissions < 256) :
    read_u8 (write_inode_fields block off r) (off + 6) = r.permissions := by
  simp only [write_inode_fields, read_u8]
  rw [writePtrs_apply_lt _ _ _ _ (by omega)]
  simp only [write_u16, write_u32]
  simp [write_u8, Nat.add_assoc]
  omega

theorem read_u8_roundtrip_flags (block : Block) (off : Nat) (r : Inode)
    (hfl : r.flags < 256) :
    read_u8 (write_inode_fields block off r) (off + 7) = r.flags := by
  simp only [write_inode_fields, read_u8]
  rw [writePtrs_apply_lt _ _ _ _ (by omega)]
  simp only [write_u16, write_u32]
  simp [write_u8, Nat.add_assoc]
  omega

theorem read_u8_roundtrip_link_count (block : Block) (off : Nat) (r : Inode)
    (hlc : r.link_count < 256) :
    read_u8 (write_inode_fields block off r) (off + 8) = r.link_count := by
  simp only [write_inode_fields, read_u8]
  rw [writePtrs_apply_lt _ _ _ _ (by omega)]
  simp only [write_u16, write_u32]
  simp [write_u8, Nat.add_assoc]
  omega

theorem readPtrs_roundtrip (block : Block) (off : Nat) (r : Inode)
    (hlen : r.block_ptr.length = 16) (hpv : ∀ p ∈ r.block_ptr, p < 65536) :
    readPtrs (write_inode_fields block off r) (off + 9) INODE_PTR_COUNT = r.block_ptr := by
  have hcount : INODE_PTR_COUNT = r.block_ptr.length := by
    rw [hlen]
    rfl
  rw [hcount]
  show readPtrs (writePtrs _ (off + 9) r.block_ptr) (off + 9) r.block_ptr.length = r.block_ptr
  rw [readPtrs_writePtrs]
  exact map_mod_eq_self r.block_ptr hpv

/-- C5: round-trip law: for every valid inode number `n` and every inode
record whose on-disk fields are within their field widths, encoding the
record into a block buffer at the offset returned by `locate n` and then
decoding at that same offset yields a record equal to it in all on-disk
fields (size, owner id, permissions, flags, link count, 16 block
pointers); the in-core-only fields (reference count, inode number) are
never serialized: decoding leaves them as in the destination record, and
encoding does not depend on them at all. -/
theorem inode_roundtrip (n : Nat) (hn : n < 256) (block : Block) (r in0 : Inode)
    (hsz : r.size < 4294967296) (how : r.owner_id < 65536)
    (hpm : r.permissions < 256) (hfl : r.flags < 256) (hlc : r.link_count < 256)
    (hlen : r.block_ptr.length = 16) (hpv : ∀ p ∈ r.block_ptr, p < 65536) :
    read_inode_fields (write_inode_fields block (locate n).2 r) (locate n).2 in0 =
      { size := r.size, owner_id := r.owner_id, permissions := r.permissions,
        flags := r.flags, link_count := r.link_count, block_ptr := r.block_ptr,
        ref_count := in0.ref_count, inode_num := in0.inode_num } ∧
    (∀ rc inum : Nat,
      write_inode_fields block (locate n).2 { r with ref_count := rc, inode_num := inum } =
        write_inode_fields block (locate n).2 r) := by
  constructor
  · simp only [read_inode_fields, Inode.mk.injEq]
    exact ⟨read_u32_roundtrip_size block _ r hsz,
      read_u16_roundtrip_owner block _ r how,
      read_u8_roundtrip_permissions block _ r hpm,
      read_u8_roundtrip_flags block _ r hfl,
      read_u8_roundtrip_link_count block _ r hlc,
      readPtrs_roundtrip block _ r hlen hpv, True.intro, True.intro⟩
  · intro rc inum
    rfl

/-- A concrete in-range inode record used to instantiate the round-trip law. -/
def sampleInode : Inode :=
  { size := 70000, owner_id := 300, permissions := 6, flags := 2, link_count := 1,
    block_ptr := [1, 2, 3, 4, 5, 6, 7, 8, 9, 10, 11, 12, 13, 14, 15, 16],
    ref_count := 9, inode_num := 42 }

theorem inode_roundtrip_witness :
    read_inode_fields (write_inode_fields (fun _ => 0) (locate 5).2 sampleInode)
        (locate 5).2 emptyInode =
      { size := sampleInode.size, owner_id := sampleInode.owner_id,
        permissions := sampleInode.permissions, flags := sampleInode.flags,
        link_count := sampleInode.link_count, block_ptr := sampleInode.block_ptr,
        ref_count := emptyInode.ref_count, inode_num := emptyInode.inode_num } := by
  exact (inode_roundtrip 5 (by decide) (fun _ => 0) sampleInode emptyInode
    (by decide) (by decide) (by decide) (by decide) (by decide) (by decide) (by decide)).1

/-- The backing disk image file as the `read`/`write` system calls see it:
a flat byte sequence. -/
def Image : Type := Nat → Nat

/-- Semantics of the `read(image_fd, block, BLOCK_SIZE)` call after
`lseek` to `offset`: the kernel transfers `t` bytes (`t < BLOCK_SIZE` on a
short read, `t = 0` on failure) into the caller's buffer and leaves the
rest of the buffer untouched. -/
def sysReadBytes (img : Image) (offset t : Nat) (buf : Block) : Block :=
  fun i => if i < t then img (offset + i) else buf i

/-- Semantics of the `write(image_fd, block, BLOCK_SIZE)` call after
`lseek` to `offset`: the kernel transfers `t` bytes from the caller's
buffer into the image and leaves the rest of the image untouched. -/
def sysWriteBytes (img : Image) (offset t : Nat) (buf : Block) : Image :=
  fun i => if offset ≤ i ∧ i < offset + t then buf (i - offset) else img i

/-- Translation of `bread` of `Project_5/block.c` at system-call
granularity: seek to `block_num * BLOCK_SIZE`, issue one read of
`BLOCK_SIZE` bytes of which the kernel transfers `t`, and return the
buffer.  The C function discards the return values of `lseek` and `read`,
so `t` influences only the buffer contents; the function has no error
output of any kind. -/
def breadFd (img : Image) (t block_num : Nat) (block : Block) : Block :=
  sysReadBytes img (block_num * BLOCK_SIZE) t block

/-- Translation of `bwrite` of `Project_5/block.c` at system-call
granularity: seek to `block_num * BLOCK_SIZE`, issue one write of
`BLOCK_SIZE` bytes of which the kernel transfers `t`, and return nothing.
The C function discards the return values of `lseek` and `write`, so the
new image is its only effect; the function has no error output of any
kind. -/
def bwriteFd (img : Image) (t block_num : Nat) (block : Block) : Image :=
  sysWriteBytes img (block_num * BLOCK_SIZE) t block

/-- C8 counterexample: on a concrete image, a completely failed transfer
(0 of 4096 bytes) is indistinguishable to the caller from a successful
full transfer: `bread` returns the identical buffer in both cases, and
`bwrite` returns normally leaving the image unchanged — the partial
transfer is silently masked, so the claim that short transfers are
surfaced as storage errors and that `bread`/`bwrite` never silently
succeed on a partial transfer is false. -/
theorem bread_short_transfer_masked :
    breadFd (fun _ => 0) 0 1 (fun _ => 0) = breadFd (fun _ => 0) BLOCK_SIZE 1 (fun _ => 0) ∧
    bwriteFd (fun _ => 0) 0 1 (fun _ => 255) = (fun _ => 0) := by
  constructor
  · funext i
    simp [breadFd, sysReadBytes]
  · funext i
    simp only [bwriteFd, sysWriteBytes]
    rw [if_neg (by omega)]

/-- C8 amended: `bread` and `bwrite` discard the results of `lseek`,
`read` and `write`: a short or failed transfer is not detected and not
surfaced.  In the extreme case of a transfer of 0 bytes, `bread` returns
the caller's buffer untouched and `bwrite` leaves the image untouched,
and both return normally exactly as on success; no storage error exists
in their interface and no retry occurs. -/
theorem bread_bwrite_ignore_short_transfers (img : Image) (block_num : Nat) (buf : Block) :
    breadFd img 0 block_num buf = buf ∧
    bwriteFd img 0 block_num buf = img := by
  constructor
  · funext i
    simp [breadFd, sysReadBytes]
  · funext i
    simp only [bwriteFd, sysWriteBytes]
    rw [if_neg (by omega)]
